import Mathlib

set_option maxHeartbeats 1000000

/-! Shallow embedding of the address matcher of `compare_caches.py`
(`normalize_address`, `get_address_keys`, `find_similar_addresses`).

Characters are modelled at ASCII level (the regexes `\s`, `\w`, `\d`,
`[a-z0-9-]` and `str.lower` are given their ASCII meaning, which is what the
script's address data exercises).  `difflib.SequenceMatcher(None, a, b)
.ratio()` is a call into the Python standard library, not code of this
repository, so the matcher is parameterised by the similarity function
`sim`; every claim about `find_similar_addresses` is settled for all such
functions unless it forces a concrete score. -/

/-- ASCII whitespace, modelling the regex class `\s`. -/
def isSpaceA (c : Char) : Bool :=
  c == ' ' || c == '\t' || c == '\n' || c == '\r' || c == '\x0b' || c == '\x0c'

/-- ASCII lower-casing of one character, modelling `str.lower()`. -/
def toLowerA (c : Char) : Char :=
  if 65 ≤ c.toNat ∧ c.toNat ≤ 90 then Char.ofNat (c.toNat + 32) else c

/-- ASCII upper-case test. -/
def upperA (c : Char) : Bool := decide (65 ≤ c.toNat) && decide (c.toNat ≤ 90)

/-- Lower-casing of a character list, modelling `address.lower()`. -/
def lowerL (l : List Char) : List Char := l.map toLowerA

/-- Scan of `re.sub(r'\s+', ' ', address)`: every maximal run of whitespace
becomes a single space.  The flag records whether the previous character was
whitespace. -/
def collapseAux : Bool → List Char → List Char
  | _, [] => []
  | prevSpace, c :: rest =>
    if isSpaceA c then
      if prevSpace then collapseAux true rest
      else ' ' :: collapseAux true rest
    else c :: collapseAux false rest

/-- Whitespace collapsing step of `normalize_address`. -/
def collapseWS (l : List Char) : List Char := collapseAux false l

/-- Removal of `,`, `.` and `#`, modelling `re.sub(r'[,\.#]', '', address)`. -/
def removePunct (l : List Char) : List Char :=
  l.filter fun c => !(c == ',' || c == '.' || c == '#')

/-- ASCII word character, modelling the regex class `\w` as used by `\b`. -/
def isWordA (c : Char) : Bool :=
  (decide (97 ≤ c.toNat) && decide (c.toNat ≤ 122)) ||
  (decide (65 ≤ c.toNat) && decide (c.toNat ≤ 90)) ||
  (decide (48 ≤ c.toNat) && decide (c.toNat ≤ 57)) || c == '_'

/-- Word boundary `\b` between the previous character (`none` at the start
of the string) and the current one. -/
def wordBoundary (prev : Option Char) (c : Char) : Bool :=
  isWordA c != (match prev with | none => false | some p => isWordA p)

/-- Character class `[a-z0-9-]` under `re.IGNORECASE`. -/
def isTailA (c : Char) : Bool :=
  (decide (97 ≤ c.toNat) && decide (c.toNat ≤ 122)) ||
  (decide (65 ≤ c.toNat) && decide (c.toNat ≤ 90)) ||
  (decide (48 ≤ c.toNat) && decide (c.toNat ≤ 57)) || c == '-'

/-- Case-insensitive literal match: the remainder of `s` after the pattern
(the pattern is given in lower case), or `none` if it does not match. -/
def stripLitCI : List Char → List Char → Option (List Char)
  | [], s => some s
  | _ :: _, [] => none
  | p :: ps, c :: cs => if toLowerA c == p then stripLitCI ps cs else none

/-- Alternatives of the unit-designator pattern, in the order the regex
alternation `(unit|apt|suite|ste|#)` tries them. -/
def unitAlts : List (List Char) :=
  [['u','n','i','t'], ['a','p','t'], ['s','u','i','t','e'], ['s','t','e'], ['#']]

/-- Designator alternatives tried at the current position; on success the
total number of characters matched by `(unit|apt|suite|ste|#)\s*[a-z0-9-]+`
(the `\s*` and `[a-z0-9-]+` parts are greedy, and no backtracking can help
because the two classes are disjoint). -/
def findUnitAlt (s : List Char) : List (List Char) → Option Nat
  | [] => none
  | alt :: rest =>
    match stripLitCI alt s with
    | some s1 =>
      let sp := s1.takeWhile isSpaceA
      let s2 := s1.dropWhile isSpaceA
      let tl := s2.takeWhile isTailA
      if tl.length = 0 then findUnitAlt s rest
      else some (alt.length + sp.length + tl.length)
    | none => findUnitAlt s rest

/-- Match attempt of `\b(unit|apt|suite|ste|#)\s*[a-z0-9-]+` at the current
position; `prev` is the preceding character of the original string. -/
def tryUnitMatch (prev : Option Char) (s : List Char) : Option Nat :=
  match s with
  | [] => none
  | c :: _ => if wordBoundary prev c then findUnitAlt s unitAlts else none

/-- Scan of `re.sub(r'\b(unit|apt|suite|ste|#)\s*[a-z0-9-]+', '', address,
flags=re.IGNORECASE)`: positions are tried left to right, each match is
deleted, and scanning resumes after the match (matches do not overlap);
`skip` counts characters still inside the current match. -/
def stripUnitsAux (prev : Option Char) (skip : Nat) : List Char → List Char
  | [] => []
  | c :: rest =>
    match skip with
    | n + 1 => stripUnitsAux (some c) n rest
    | 0 =>
      match tryUnitMatch prev (c :: rest) with
      | some k => stripUnitsAux (some c) (k - 1) rest
      | none => c :: stripUnitsAux (some c) 0 rest

/-- Unit/apt/suite designator removal step of `normalize_address`. -/
def stripUnits (l : List Char) : List Char := stripUnitsAux none 0 l

/-- Scan of `str.replace(pat, rep)` for a non-empty `pat`: non-overlapping
occurrences are replaced left to right; `skip` counts characters still
inside the current occurrence. -/
def replaceAllAux (pat rep : List Char) (skip : Nat) : List Char → List Char
  | [] => []
  | c :: cs =>
    match skip with
    | n + 1 => replaceAllAux pat rep n cs
    | 0 =>
      if pat.isPrefixOf (c :: cs) then rep ++ replaceAllAux pat rep (pat.length - 1) cs
      else c :: replaceAllAux pat rep 0 cs

/-- Replacement of every occurrence, modelling `str.replace`. -/
def replaceAll (pat rep l : List Char) : List Char := replaceAllAux pat rep 0 l

/-- Abbreviation standardisation pairs, in the order the source applies
them: road, street, avenue, boulevard, drive, lane. -/
def abbrevPairs : List (List Char × List Char) :=
  [([' ','r','o','a','d'], [' ','r','d']),
   ([' ','s','t','r','e','e','t'], [' ','s','t']),
   ([' ','a','v','e','n','u','e'], [' ','a','v','e']),
   ([' ','b','o','u','l','e','v','a','r','d'], [' ','b','l','v','d']),
   ([' ','d','r','i','v','e'], [' ','d','r']),
   ([' ','l','a','n','e'], [' ','l','n'])]

/-- Chained `str.replace` calls of `normalize_address` (lines 63-65). -/
def replaceAbbrevs (l : List Char) : List Char :=
  abbrevPairs.foldl (fun acc pr => replaceAll pr.1 pr.2 acc) l

/-- Leading- and trailing-whitespace removal, modelling `str.strip()`. -/
def stripEnds (l : List Char) : List Char :=
  ((l.dropWhile isSpaceA).reverse.dropWhile isSpaceA).reverse

/-- Embedding of `normalize_address` (compare_caches.py, lines 47-67). -/
def normalizeAddress (address : String) : String :=
  if address = "" then ""
  else
    String.mk
      (stripEnds (replaceAbbrevs (stripUnits (removePunct (collapseWS (lowerL address.data))))))

/-- Python-level entry point: `if not address` treats `None` like the empty
string, so a missing address also normalizes to the empty string. -/
def normalizeAddressOpt : Option String → String
  | none => ""
  | some s => normalizeAddress s

/-- ASCII digit, modelling the regex class `\d`. -/
def isDigitA (c : Char) : Bool := decide (48 ≤ c.toNat) && decide (c.toNat ≤ 57)

/-- ASCII lower-case letter, the regex class `[a-z]`. -/
def isLowerAZ (c : Char) : Bool := decide (97 ≤ c.toNat) && decide (c.toNat ≤ 122)

/-- Leftmost match of `re.search(r'(\d+)\s+([a-z]+)', address.lower())`,
returning the two groups.  All three pieces are greedy and the classes are
pairwise disjoint, so backtracking cannot rescue a failed position. -/
def searchNumStreet : List Char → Option (List Char × List Char)
  | [] => none
  | c :: rest =>
    if isDigitA c then
      let num := (c :: rest).takeWhile isDigitA
      let r1 := (c :: rest).dropWhile isDigitA
      let r2 := r1.dropWhile isSpaceA
      let letters := r2.takeWhile isLowerAZ
      if (r1.takeWhile isSpaceA).length = 0 then searchNumStreet rest
      else if letters.length = 0 then searchNumStreet rest
      else some (num, letters)
    else searchNumStreet rest

/-- Leftmost match of `re.search(r'\b(\d{5})\b', address)`: a run of exactly
five digits with a word boundary on both sides. -/
def searchZip (prev : Option Char) : List Char → Option (List Char)
  | [] => none
  | c :: rest =>
    if isDigitA c && !(match prev with | none => false | some p => isWordA p) then
      let run := (c :: rest).takeWhile isDigitA
      let after := (c :: rest).drop run.length
      if run.length = 5 && (match after with | [] => true | d :: _ => !isWordA d) then some run
      else searchZip (some c) rest
    else searchZip (some c) rest

/-- Keys from the street-number match of `get_address_keys` (lines 81-92):
number plus three-letter street prefix, bare number, and the bare street
prefix when the street name has at least three letters. -/
def numStreetKeys (low : List Char) : List String :=
  match searchNumStreet low with
  | some (num, street) =>
    [String.mk (num ++ '_' :: street.take 3), String.mk num] ++
      (if 3 ≤ street.length then [String.mk (street.take 3)] else [])
  | none => []

/-- First five non-space characters of the lowered address (line 95). -/
def firstCharsKey (low : List Char) : String :=
  String.mk ((low.filter fun c => !(c == ' ')).take 5)

/-- Keys accumulated before the zip key: the first-characters key is added
only when non-empty and not already present (lines 96-97). -/
def keysBeforeZip (low : List Char) : List String :=
  numStreetKeys low ++
    (if firstCharsKey low ≠ "" ∧ firstCharsKey low ∉ numStreetKeys low then [firstCharsKey low]
     else [])

/-- Zip-code key, searched on the raw (un-lowered) address (lines 100-102). -/
def zipKeys (raw : List Char) : List String :=
  match searchZip none raw with
  | some run => [String.mk ('z' :: 'i' :: 'p' :: '_' :: run)]
  | none => []

/-- Embedding of `get_address_keys` (compare_caches.py, lines 70-104). -/
def getAddressKeys (address : String) : List String :=
  if address = "" then []
  else keysBeforeZip (lowerL address.data) ++ zipKeys address.data

/-- Python-level entry point: `get_address_keys(None)` returns no keys. -/
def getAddressKeysOpt : Option String → List String
  | none => []
  | some s => getAddressKeys s

/-- First-occurrence deduplication, modelling how a Python dict built from a
collection keeps one entry per key, in first-insertion order. -/
def firstDedup (seen : List String) : List String → List String
  | [] => []
  | a :: rest => if a ∈ seen then firstDedup seen rest else a :: firstDedup (a :: seen) rest

/-- Deduplication of candidate pairs by original address, keeping first
occurrences (compare_caches.py, lines 182-187). -/
def uniqueByFirst (seen : List String) : List (String × String) → List (String × String)
  | [] => []
  | g :: rest =>
    if g.1 ∈ seen then uniqueByFirst seen rest else g :: uniqueByFirst (g.1 :: seen) rest

/-- Bucket lookup: entries of set A listed once per occurrence of `key`
among the keys of their normalized form (compare_caches.py, lines 152-156,
179). -/
def geoBucket (normGeo : List (String × String)) (key : String) : List (String × String) :=
  normGeo.flatMap fun g =>
    ((getAddressKeys g.2).filter fun k => k == key && !(k == "")).map fun _ => g

/-- Inner comparison loop over the candidate matches of one reverse address
(compare_caches.py, lines 193-205): the updated compared-pairs set together
with the potential matches this iteration appends. -/
def compareOne (sim : String → String → ℚ) (threshold : ℚ)
    (exactPairs : List (String × String)) (rev : String × String) :
    List (String × String) → List (String × String) →
      List (String × String) × List (String × String × ℚ)
  | [], compared => (compared, [])
  | g :: rest, compared =>
    if (g.1, rev.1) ∈ compared ∨ (g.1, rev.1) ∈ exactPairs then
      compareOne sim threshold exactPairs rev rest compared
    else
      let score := sim g.2 rev.2
      let res := compareOne sim threshold exactPairs rev rest ((g.1, rev.1) :: compared)
      (res.1, if threshold ≤ score ∧ score < 1 then (g.1, rev.1, score) :: res.2 else res.2)

/-- Outer comparison loop over the reverse addresses (compare_caches.py,
lines 167-205), accumulating `all_potential_matches`. -/
def compareAll (sim : String → String → ℚ) (threshold : ℚ)
    (exactPairs : List (String × String)) (normGeo : List (String × String)) :
    List (String × String) → List (String × String) → List (String × String × ℚ)
  | [], _ => []
  | rev :: rest, compared =>
    let keys := getAddressKeys rev.2
    if keys = [] then compareAll sim threshold exactPairs normGeo rest compared
    else
      let cands := uniqueByFirst [] (keys.flatMap (geoBucket normGeo))
      let res := compareOne sim threshold exactPairs rev cands compared
      res.2 ++ compareAll sim threshold exactPairs normGeo rest res.1

/-- Greedy best-first assignment with exclusion sets (compare_caches.py,
lines 214-229). -/
def greedy (usedGeo usedRev : List String) : List (String × String × ℚ) → List (String × String × ℚ)
  | [] => []
  | p :: rest =>
    if p.1 ∉ usedGeo ∧ p.2.1 ∉ usedRev then
      p :: greedy (p.1 :: usedGeo) (p.2.1 :: usedRev) rest
    else greedy usedGeo usedRev rest

/-- Descending-score order used for
`all_potential_matches.sort(key=lambda x: x[2], reverse=True)`. -/
def scoreGE (p q : String × String × ℚ) : Prop := q.2.2 ≤ p.2.2

instance : DecidableRel scoreGE := fun p q => inferInstanceAs (Decidable (q.2.2 ≤ p.2.2))

instance : IsTotal (String × String × ℚ) scoreGE := ⟨fun a b => le_total b.2.2 a.2.2⟩

instance : IsTrans (String × String × ℚ) scoreGE := ⟨fun _ _ _ h1 h2 => le_trans h2 h1⟩

/-- Normalization dict `{addr: normalize_address(addr) for addr in coll}`
(compare_caches.py, lines 132-135), as an association list in key-insertion
order. -/
def normPairs (coll : List String) : List (String × String) :=
  (firstDedup [] coll).map fun a => (a, normalizeAddress a)

/-- Normalized exact matches: the all-pairs loop of compare_caches.py,
lines 142-146 (also the contents of the set `exact_match_pairs`). -/
def exactOf (geocodingOnly reverseOnly : List String) : List (String × String) :=
  (normPairs geocodingOnly).flatMap fun g =>
    (normPairs reverseOnly).filterMap fun r =>
      if g.2 ≠ "" ∧ r.2 ≠ "" ∧ g.2 = r.2 then some (g.1, r.1) else none

/-- The list `all_potential_matches` after the comparison loops
(compare_caches.py, lines 167-205). -/
def allPotentialOf (sim : String → String → ℚ) (geocodingOnly reverseOnly : List String)
    (threshold : ℚ) : List (String × String × ℚ) :=
  compareAll sim threshold (exactOf geocodingOnly reverseOnly) (normPairs geocodingOnly)
    (normPairs reverseOnly) []

/-- Embedding of `find_similar_addresses` (compare_caches.py, lines
114-235), returning `(final_matches, exact_matches)`.  `sim` stands for the
external `SequenceMatcher.ratio`; CPython's list sort is stable, so the
stable `List.insertionSort` by descending score produces the same order. -/
def findSimilarAddresses (sim : String → String → ℚ) (geocodingOnly reverseOnly : List String)
    (threshold : ℚ) : List (String × String × ℚ) × List (String × String) :=
  (greedy ((exactOf geocodingOnly reverseOnly).map Prod.fst)
      ((exactOf geocodingOnly reverseOnly).map fun p => p.2)
      (List.insertionSort scoreGE (allPotentialOf sim geocodingOnly reverseOnly threshold)),
    exactOf geocodingOnly reverseOnly)

/-- Check that a string neither starts nor ends with whitespace. -/
def noLeadTrailWS (s : String) : Bool :=
  (match s.data.head? with | none => true | some c => !isSpaceA c) &&
  (match s.data.getLast? with | none => true | some c => !isSpaceA c)

/-- Check for two consecutive space characters. -/
def hasDoubleSpace : List Char → Bool
  | [] => false
  | [_] => false
  | a :: b :: rest => (a == ' ' && b == ' ') || hasDoubleSpace (b :: rest)

/-! Helper lemmas about the character-level scans. -/

lemma upperA_toLowerA (c : Char) : upperA (toLowerA c) = false := by
  unfold toLowerA
  split
  · rename_i h
    obtain ⟨h1, h2⟩ := h
    generalize hn : c.toNat = n at h1 h2
    interval_cases n <;> decide
  · rename_i h
    simp only [upperA, Bool.and_eq_false_iff, decide_eq_false_iff_not]
    omega

lemma toLowerA_eq_self (c : Char) (h : upperA c = false) : toLowerA c = c := by
  unfold toLowerA
  rw [if_neg]
  intro hc
  simp only [upperA, Bool.and_eq_false_iff, decide_eq_false_iff_not] at h
  omega

lemma mem_lowerL {c : Char} {l : List Char} (h : c ∈ lowerL l) : ∃ d ∈ l, c = toLowerA d := by
  rcases List.mem_map.mp h with ⟨d, hd, rfl⟩
  exact ⟨d, hd, rfl⟩

lemma lowerL_eq_self (l : List Char) (h : ∀ c ∈ l, upperA c = false) : lowerL l = l := by
  induction l with
  | nil => rfl
  | cons a l ih =>
    show toLowerA a :: lowerL l = a :: l
    rw [toLowerA_eq_self a (h a (List.mem_cons_self a l)), ih fun c hc => h c (List.mem_cons_of_mem a hc)]

lemma mem_collapseAux {c : Char} : ∀ (b : Bool) (l : List Char), c ∈ collapseAux b l → c = ' ' ∨ c ∈ l := by
  intro b l
  induction l generalizing b with
  | nil => intro h; simp [collapseAux] at h
  | cons d rest ih =>
    intro h
    simp only [collapseAux] at h
    split at h
    · split at h
      · rcases ih _ h with h | h
        · exact Or.inl h
        · exact Or.inr (List.mem_cons_of_mem d h)
      · rcases List.mem_cons.mp h with h | h
        · exact Or.inl h
        · rcases ih _ h with h | h
          · exact Or.inl h
          · exact Or.inr (List.mem_cons_of_mem d h)
    · rcases List.mem_cons.mp h with h | h
      · exact Or.inr (h ▸ List.mem_cons_self d rest)
      · rcases ih _ h with h | h
        · exact Or.inl h
        · exact Or.inr (List.mem_cons_of_mem d h)

lemma mem_removePunct {c : Char} {l : List Char} (h : c ∈ removePunct l) :
    c ∈ l ∧ (c == ',' || c == '.' || c == '#') = false := by
  have := List.mem_filter.mp h
  exact ⟨this.1, by simpa using this.2⟩

lemma mem_stripUnitsAux {c : Char} : ∀ (l : List Char) (prev : Option Char) (skip : Nat),
    c ∈ stripUnitsAux prev skip l → c ∈ l := by
  intro l
  induction l with
  | nil => intro prev skip h; simp [stripUnitsAux] at h
  | cons d rest ih =>
    intro prev skip h
    cases skip with
    | succ n =>
      simp only [stripUnitsAux] at h
      exact List.mem_cons_of_mem d (ih _ _ h)
    | zero =>
      simp only [stripUnitsAux] at h
      cases htm : tryUnitMatch prev (d :: rest) with
      | some k => rw [htm] at h; exact List.mem_cons_of_mem d (ih _ _ h)
      | none =>
        rw [htm] at h
        rcases List.mem_cons.mp h with h | h
        · exact h ▸ List.mem_cons_self d rest
        · exact List.mem_cons_of_mem d (ih _ _ h)

lemma mem_replaceAllAux {c : Char} (pat rep : List Char) : ∀ (l : List Char) (skip : Nat),
    c ∈ replaceAllAux pat rep skip l → c ∈ rep ∨ c ∈ l := by
  intro l
  induction l with
  | nil => intro skip h; simp [replaceAllAux] at h
  | cons d rest ih =>
    intro skip h
    cases skip with
    | succ n =>
      simp only [replaceAllAux] at h
      rcases ih _ h with h | h
      · exact Or.inl h
      · exact Or.inr (List.mem_cons_of_mem d h)
    | zero =>
      simp only [replaceAllAux] at h
      split at h
      · rcases List.mem_append.mp h with h | h
        · exact Or.inl h
        · rcases ih _ h with h | h
          · exact Or.inl h
          · exact Or.inr (List.mem_cons_of_mem d h)
      · rcases List.mem_cons.mp h with h | h
        · exact Or.inr (h ▸ List.mem_cons_self d rest)
        · rcases ih _ h with h | h
          · exact Or.inl h
          · exact Or.inr (List.mem_cons_of_mem d h)

/-- Characters that the abbreviation replacements can insert. -/
def repChars : List Char := [' ', 'r', 'd', 's', 't', 'a', 'v', 'e', 'b', 'l', 'n']

lemma mem_replaceAbbrevs {c : Char} (l : List Char) (h : c ∈ replaceAbbrevs l) :
    c ∈ repChars ∨ c ∈ l := by
  simp only [replaceAbbrevs, abbrevPairs, List.foldl, replaceAll] at h
  rcases mem_replaceAllAux _ _ _ _ h with h | h
  · left; fin_cases h <;> decide
  rcases mem_replaceAllAux _ _ _ _ h with h | h
  · left; fin_cases h <;> decide
  rcases mem_replaceAllAux _ _ _ _ h with h | h
  · left; fin_cases h <;> decide
  rcases mem_replaceAllAux _ _ _ _ h with h | h
  · left; fin_cases h <;> decide
  rcases mem_replaceAllAux _ _ _ _ h with h | h
  · left; fin_cases h <;> decide
  rcases mem_replaceAllAux _ _ _ _ h with h | h
  · left; fin_cases h <;> decide
  · exact Or.inr h

lemma mem_stripEnds {c : Char} (l : List Char) (h : c ∈ stripEnds l) : c ∈ l := by
  unfold stripEnds at h
  rw [List.mem_reverse] at h
  have h1 := (List.dropWhile_suffix isSpaceA).subset h
  rw [List.mem_reverse] at h1
  exact (List.dropWhile_suffix isSpaceA).subset h1

lemma head?_dropWhile_not {p : Char → Bool} : ∀ (l : List Char) (c : Char),
    (l.dropWhile p).head? = some c → p c = false := by
  intro l
  induction l with
  | nil => intro c h; simp at h
  | cons a l ih =>
    intro c h
    rw [List.dropWhile_cons] at h
    split at h
    · exact ih c h
    · rename_i hp
      simp only [List.head?_cons, Option.some.injEq] at h
      rw [← h]
      simpa using hp

lemma getLast?_dropWhile_ne_nil {p : Char → Bool} : ∀ (l : List Char),
    l.dropWhile p ≠ [] → (l.dropWhile p).getLast? = l.getLast? := by
  intro l
  induction l with
  | nil => intro h; simp at h
  | cons a l ih =>
    intro h
    rw [List.dropWhile_cons]
    rw [List.dropWhile_cons] at h
    split
    · rename_i hp
      rw [if_pos hp] at h
      have hl : l ≠ [] := by
        intro he
        apply h
        rw [he]
        rfl
      rw [ih h]
      cases l with
      | nil => exact absurd rfl hl
      | cons b m => rw [List.getLast?_cons_cons]
    · rfl

lemma head?_stripEnds (l : List Char) (c : Char) (h : (stripEnds l).head? = some c) :
    isSpaceA c = false := by
  unfold stripEnds at h
  cases hm : ((l.dropWhile isSpaceA).reverse.dropWhile isSpaceA) with
  | nil => rw [hm] at h; simp at h
  | cons b m =>
    have hne : (l.dropWhile isSpaceA).reverse.dropWhile isSpaceA ≠ [] := by
      rw [hm]; exact List.cons_ne_nil b m
    rw [List.head?_reverse, getLast?_dropWhile_ne_nil _ hne, List.getLast?_reverse] at h
    exact head?_dropWhile_not l c h

lemma getLast?_stripEnds (l : List Char) (c : Char) (h : (stripEnds l).getLast? = some c) :
    isSpaceA c = false := by
  unfold stripEnds at h
  rw [List.getLast?_reverse] at h
  exact head?_dropWhile_not _ c h

lemma dropWhile_eq_self_of_head {p : Char → Bool} (l : List Char)
    (h : ∀ c, l.head? = some c → p c = false) : l.dropWhile p = l := by
  cases l with
  | nil => rfl
  | cons a l => rw [List.dropWhile_cons, if_neg (by simp [h a rfl])]

lemma stripEnds_fix (y : List Char) (h1 : ∀ c, y.head? = some c → isSpaceA c = false)
    (h2 : ∀ c, y.getLast? = some c → isSpaceA c = false) : stripEnds y = y := by
  have e1 : y.dropWhile isSpaceA = y := dropWhile_eq_self_of_head y h1
  have e2 : y.reverse.dropWhile isSpaceA = y.reverse := by
    apply dropWhile_eq_self_of_head
    intro c hc
    rw [List.head?_reverse] at hc
    exact h2 c hc
  show ((y.dropWhile isSpaceA).reverse.dropWhile isSpaceA).reverse = y
  rw [e1, e2, List.reverse_reverse]

/-! Invariants of the output of `normalizeAddress`. -/

lemma normalizeAddress_empty : normalizeAddress "" = "" := rfl

lemma normalizeAddress_eq (address : String) (h : ¬ address = "") :
    normalizeAddress address =
      String.mk
        (stripEnds (replaceAbbrevs (stripUnits (removePunct (collapseWS (lowerL address.data)))))) := by
  unfold normalizeAddress
  rw [if_neg h]

lemma normalize_no_upper (s : String) : ∀ c ∈ (normalizeAddress s).data, upperA c = false := by
  intro c hc
  by_cases h : s = ""
  · subst h; simp [normalizeAddress_empty, String.data] at hc
  · rw [normalizeAddress_eq s h] at hc
    have hc1 := mem_stripEnds _ hc
    rcases mem_replaceAbbrevs _ hc1 with h2 | h2
    · fin_cases h2 <;> decide
    · have h3 := mem_stripUnitsAux _ _ _ h2
      have h4 := (mem_removePunct h3).1
      rcases mem_collapseAux _ _ h4 with h5 | h5
      · subst h5; decide
      · rcases mem_lowerL h5 with ⟨d, _, rfl⟩
        exact upperA_toLowerA d

lemma normalize_no_punct (s : String) :
    ∀ c ∈ (normalizeAddress s).data, (c == ',' || c == '.' || c == '#') = false := by
  intro c hc
  by_cases h : s = ""
  · subst h; simp [normalizeAddress_empty, String.data] at hc
  · rw [normalizeAddress_eq s h] at hc
    have hc1 := mem_stripEnds _ hc
    rcases mem_replaceAbbrevs _ hc1 with h2 | h2
    · fin_cases h2 <;> decide
    · have h3 := mem_stripUnitsAux _ _ _ h2
      exact (mem_removePunct h3).2

lemma normalize_head_not_space (s : String) :
    ∀ c, (normalizeAddress s).data.head? = some c → isSpaceA c = false := by
  intro c hc
  by_cases h : s = ""
  · subst h; simp [normalizeAddress_empty, String.data] at hc
  · rw [normalizeAddress_eq s h] at hc
    exact head?_stripEnds _ c hc

lemma normalize_getLast_not_space (s : String) :
    ∀ c, (normalizeAddress s).data.getLast? = some c → isSpaceA c = false := by
  intro c hc
  by_cases h : s = ""
  · subst h; simp [normalizeAddress_empty, String.data] at hc
  · rw [normalizeAddress_eq s h] at hc
    exact getLast?_stripEnds _ c hc

/-! Helper lemmas about the matcher's phases. -/

lemma mem_firstDedup : ∀ (coll : List String) (seen : List String) (x : String),
    x ∈ coll → x ∉ seen → x ∈ firstDedup seen coll := by
  intro coll
  induction coll with
  | nil => intro seen x hx; simp at hx
  | cons a rest ih =>
    intro seen x hx hs
    simp only [firstDedup]
    split
    · rcases List.mem_cons.mp hx with rfl | hx
      · exact absurd ‹x ∈ seen› hs
      · exact ih seen x hx hs
    · rcases List.mem_cons.mp hx with rfl | hx
      · exact List.mem_cons_self x _
      · by_cases hxa : x = a
        · exact hxa ▸ List.mem_cons_self a _
        · exact List.mem_cons_of_mem a
            (ih _ x hx (by simp only [List.mem_cons]; push_neg; exact ⟨hxa, hs⟩))

lemma normPairs_mem_intro {coll : List String} {a : String} (ha : a ∈ coll) :
    (a, normalizeAddress a) ∈ normPairs coll :=
  List.mem_map_of_mem _ (mem_firstDedup coll [] a ha (by simp))

lemma normPairs_shape {coll : List String} {p : String × String} (hp : p ∈ normPairs coll) :
    p.2 = normalizeAddress p.1 := by
  rcases List.mem_map.mp hp with ⟨a, _, rfl⟩
  rfl

lemma exactOf_mem_intro {A B : List String} {a b : String} (ha : a ∈ A) (hb : b ∈ B)
    (hne : ¬ normalizeAddress a = "") (heq : normalizeAddress a = normalizeAddress b) :
    (a, b) ∈ exactOf A B := by
  unfold exactOf
  rw [List.mem_flatMap]
  refine ⟨(a, normalizeAddress a), normPairs_mem_intro ha, ?_⟩
  rw [List.mem_filterMap]
  refine ⟨(b, normalizeAddress b), normPairs_mem_intro hb, ?_⟩
  rw [if_pos ⟨hne, heq ▸ hne, heq⟩]

lemma exactOf_mem_elim {A B : List String} {p : String × String} (hp : p ∈ exactOf A B) :
    ¬ normalizeAddress p.1 = "" ∧ ¬ normalizeAddress p.2 = "" ∧
      normalizeAddress p.1 = normalizeAddress p.2 := by
  unfold exactOf at hp
  rw [List.mem_flatMap] at hp
  rcases hp with ⟨g, hg, hp⟩
  rw [List.mem_filterMap] at hp
  rcases hp with ⟨r, hr, hp⟩
  split at hp
  · rename_i hcond
    cases hp
    have hgs := normPairs_shape hg
    have hrs := normPairs_shape hr
    exact ⟨hgs ▸ hcond.1, hrs ▸ hcond.2.1, by rw [← hgs, ← hrs]; exact hcond.2.2⟩
  · cases hp

lemma uniqueByFirst_subset : ∀ (cands : List (String × String)) (seen : List String)
    (g : String × String), g ∈ uniqueByFirst seen cands → g ∈ cands := by
  intro cands
  induction cands with
  | nil => intro seen g h; simp [uniqueByFirst] at h
  | cons a rest ih =>
    intro seen g h
    simp only [uniqueByFirst] at h
    split at h
    · exact List.mem_cons_of_mem a (ih _ g h)
    · rcases List.mem_cons.mp h with rfl | h
      · exact List.mem_cons_self g rest
      · exact List.mem_cons_of_mem a (ih _ g h)

lemma geoBucket_mem {normGeo : List (String × String)} {key : String} {g : String × String}
    (h : g ∈ geoBucket normGeo key) :
    g ∈ normGeo ∧ ∃ k ∈ getAddressKeys g.2, ¬ k = "" := by
  unfold geoBucket at h
  rw [List.mem_flatMap] at h
  rcases h with ⟨g', hg', h⟩
  rcases List.mem_map.mp h with ⟨k, hk, rfl⟩
  have hk' := List.mem_filter.mp hk
  refine ⟨hg', k, hk'.1, ?_⟩
  have := hk'.2
  simp only [Bool.and_eq_true, beq_iff_eq, Bool.not_eq_true', beq_eq_false_iff_ne] at this
  exact this.2

lemma compareOne_mem (sim : String → String → ℚ) (threshold : ℚ)
    (exactPairs : List (String × String)) (rev : String × String) :
    ∀ (cands : List (String × String)) (compared : List (String × String))
      (m : String × String × ℚ),
      m ∈ (compareOne sim threshold exactPairs rev cands compared).2 →
      (m.1, m.2.1) ∉ exactPairs ∧ m.2.1 = rev.1 ∧ threshold ≤ m.2.2 ∧ m.2.2 < 1 ∧
        ∃ g ∈ cands, g.1 = m.1 := by
  intro cands
  induction cands with
  | nil => intro compared m h; simp [compareOne] at h
  | cons g rest ih =>
    intro compared m h
    simp only [compareOne] at h
    split at h
    · rcases ih _ m h with ⟨h1, h2, h3, h4, g', hg', h5⟩
      exact ⟨h1, h2, h3, h4, g', List.mem_cons_of_mem g hg', h5⟩
    · rename_i hnot
      split at h
      · rcases List.mem_cons.mp h with rfl | h
        · refine ⟨fun hin => hnot (Or.inr hin), rfl, ?_, ?_, g, List.mem_cons_self g rest, rfl⟩
          · exact ‹threshold ≤ sim g.2 rev.2 ∧ sim g.2 rev.2 < 1›.1
          · exact ‹threshold ≤ sim g.2 rev.2 ∧ sim g.2 rev.2 < 1›.2
        · rcases ih _ m h with ⟨h1, h2, h3, h4, g', hg', h5⟩
          exact ⟨h1, h2, h3, h4, g', List.mem_cons_of_mem g hg', h5⟩
      · rcases ih _ m h with ⟨h1, h2, h3, h4, g', hg', h5⟩
        exact ⟨h1, h2, h3, h4, g', List.mem_cons_of_mem g hg', h5⟩

lemma compareAll_mem (sim : String → String → ℚ) (threshold : ℚ)
    (exactPairs : List (String × String)) (normGeo : List (String × String)) :
    ∀ (revs : List (String × String)) (compared : List (String × String))
      (m : String × String × ℚ),
      m ∈ compareAll sim threshold exactPairs normGeo revs compared →
      (m.1, m.2.1) ∉ exactPairs ∧ threshold ≤ m.2.2 ∧ m.2.2 < 1 ∧
        (∃ rev ∈ revs, ¬ getAddressKeys rev.2 = [] ∧ m.2.1 = rev.1) ∧
        ∃ g ∈ normGeo, g.1 = m.1 ∧ ∃ k ∈ getAddressKeys g.2, ¬ k = "" := by
  intro revs
  induction revs with
  | nil => intro compared m h; simp [compareAll] at h
  | cons rev rest ih =>
    intro compared m h
    simp only [compareAll] at h
    split at h
    · rcases ih _ m h with ⟨h1, h2, h3, ⟨r, hr, h4⟩, h5⟩
      exact ⟨h1, h2, h3, ⟨r, List.mem_cons_of_mem rev hr, h4⟩, h5⟩
    · rename_i hkeys
      rcases List.mem_append.mp h with h | h
      · rcases compareOne_mem _ _ _ _ _ _ m h with ⟨h1, h2, h3, h4, g', hg', h5⟩
        have hg'' := uniqueByFirst_subset _ _ _ hg'
        rw [List.mem_flatMap] at hg''
        rcases hg'' with ⟨key, _, hgb⟩
        rcases geoBucket_mem hgb with ⟨hgn, hk⟩
        exact ⟨h1, h3, h4, ⟨rev, List.mem_cons_self rev rest, hkeys, h2⟩, g', hgn, h5, hk⟩
      · rcases ih _ m h with ⟨h1, h2, h3, ⟨r, hr, h4⟩, h5⟩
        exact ⟨h1, h2, h3, ⟨r, List.mem_cons_of_mem rev hr, h4⟩, h5⟩

lemma greedy_sublist : ∀ (l : List (String × String × ℚ)) (uG uR : List String),
    (greedy uG uR l).Sublist l := by
  intro l
  induction l with
  | nil => intro uG uR; simp [greedy]
  | cons p rest ih =>
    intro uG uR
    simp only [greedy]
    split
    · exact List.Sublist.cons₂ p (ih _ _)
    · exact List.Sublist.cons p (ih _ _)

lemma greedy_mem : ∀ (l : List (String × String × ℚ)) (uG uR : List String)
    (p : String × String × ℚ), p ∈ greedy uG uR l →
    p.1 ∉ uG ∧ p.2.1 ∉ uR ∧ p ∈ l := by
  intro l
  induction l with
  | nil => intro uG uR p h; simp [greedy] at h
  | cons q rest ih =>
    intro uG uR p h
    simp only [greedy] at h
    split at h
    · rename_i hq
      rcases List.mem_cons.mp h with rfl | h
      · exact ⟨hq.1, hq.2, List.mem_cons_self p rest⟩
      · rcases ih _ _ p h with ⟨h1, h2, h3⟩
        refine ⟨fun hin => h1 (List.mem_cons_of_mem _ hin),
          fun hin => h2 (List.mem_cons_of_mem _ hin), List.mem_cons_of_mem q h3⟩
    · rcases ih _ _ p h with ⟨h1, h2, h3⟩
      exact ⟨h1, h2, List.mem_cons_of_mem q h3⟩

lemma greedy_pairwise : ∀ (l : List (String × String × ℚ)) (uG uR : List String),
    (greedy uG uR l).Pairwise fun p q => ¬ p.1 = q.1 ∧ ¬ p.2.1 = q.2.1 := by
  intro l
  induction l with
  | nil => intro uG uR; simp [greedy]
  | cons q rest ih =>
    intro uG uR
    simp only [greedy]
    split
    · refine List.Pairwise.cons ?_ (ih _ _)
      intro p hp
      rcases greedy_mem _ _ _ p hp with ⟨h1, h2, _⟩
      constructor
      · intro he; exact h1 (he ▸ List.mem_cons_self q.1 uG)
      · intro he; exact h2 (he ▸ List.mem_cons_self q.2.1 uR)
    · exact ih _ _

lemma numStreetKeys_length (low : List Char) : (numStreetKeys low).length ≤ 3 := by
  unfold numStreetKeys
  split
  · rw [List.length_append]
    split <;> simp
  · simp

lemma keysBeforeZip_length (low : List Char) : (keysBeforeZip low).length ≤ 4 := by
  unfold keysBeforeZip
  rw [List.length_append]
  have h := numStreetKeys_length low
  split <;> simp <;> omega

lemma zipKeys_length (raw : List Char) : (zipKeys raw).length ≤ 1 := by
  unfold zipKeys
  split <;> simp

/-! Theorems for the claims. -/

/-- C1 (counterexample): with A = {"a", "a."} and B = {"a,"} all three
addresses normalize to "a", and the exact-match list contains both
("a", "a,") and ("a.", "a,"), so the address "a," occurs in two accepted
exact pairs — the claimed one-to-one property over the combined output is
false. -/
theorem exact_matches_share_address_counterexample :
    ("a", "a,") ∈ (findSimilarAddresses (fun _ _ => 0) ["a", "a."] ["a,"] 0).2 ∧
    ("a.", "a,") ∈ (findSimilarAddresses (fun _ _ => 0) ["a", "a."] ["a,"] 0).2 ∧
    ¬ ("a" : String) = "a." := by decide

/-- C1 (amended): the one-to-one property holds for the fuzzy list: no
address occurs in two fuzzy pairs, and no fuzzy pair reuses an address of
any exact pair on the same side.  Exact pairs themselves may share
addresses (the exact phase is an unrestricted all-pairs loop). -/
theorem fuzzy_one_to_one_disjoint_from_exact (sim : String → String → ℚ)
    (A B : List String) (t : ℚ) :
    ((findSimilarAddresses sim A B t).1.Pairwise fun p q => ¬ p.1 = q.1 ∧ ¬ p.2.1 = q.2.1) ∧
    ((findSimilarAddresses sim A B t).1.all fun p =>
        (findSimilarAddresses sim A B t).2.all fun e =>
          !(e.1 == p.1) && !(e.2 == p.2.1)) = true := by
  constructor
  · exact greedy_pairwise _ _ _
  · rw [List.all_eq_true]
    intro p hp
    rw [List.all_eq_true]
    intro e he
    have h := greedy_mem _ _ _ _ hp
    simp only [Bool.and_eq_true, Bool.not_eq_true', beq_eq_false_iff_ne]
    constructor
    · intro hEq
      exact h.1 (hEq ▸ List.mem_map_of_mem Prod.fst he)
    · intro hEq
      exact h.2.1 (hEq ▸ List.mem_map_of_mem (fun q => q.2) he)

/-- C2 (counterexample): `normalize_address` is not idempotent.  On
"a apt 3 b" the designator removal deletes "apt 3" after whitespace was
already collapsed, leaving "a  b" with a double space; a second
application collapses it to "a b". -/
theorem normalizeAddress_not_idempotent_counterexample :
    ¬ normalizeAddress (normalizeAddress "a apt 3 b") = normalizeAddress "a apt 3 b" := by
  decide

/-- C2 (amended): `normalize_address` is idempotent on every input whose
normalized form is left unchanged by the whitespace-collapse, the
unit-designator removal and the abbreviation replacement steps (the three
steps that can act on an already-normalized string; lower-casing,
punctuation removal and stripping always fix a normalized form). -/
theorem normalizeAddress_idempotent_on_stable_outputs (x : String)
    (h1 : collapseWS (normalizeAddress x).data = (normalizeAddress x).data)
    (h2 : stripUnits (normalizeAddress x).data = (normalizeAddress x).data)
    (h3 : replaceAbbrevs (normalizeAddress x).data = (normalizeAddress x).data) :
    normalizeAddress (normalizeAddress x) = normalizeAddress x := by
  by_cases hy : normalizeAddress x = ""
  · rw [hy]
    exact normalizeAddress_empty
  · rw [normalizeAddress_eq _ hy]
    rw [lowerL_eq_self _ (normalize_no_upper x), h1]
    have hpunct : removePunct (normalizeAddress x).data = (normalizeAddress x).data :=
      List.filter_eq_self.mpr fun c hc => by
        have h := normalize_no_punct x c hc
        rw [h]
        rfl
    rw [hpunct, h2, h3]
    have hstrip : stripEnds (normalizeAddress x).data = (normalizeAddress x).data :=
      stripEnds_fix _ (normalize_head_not_space x) (normalize_getLast_not_space x)
    rw [hstrip]

/-- C2 (witness): the three stability hypotheses hold for the normalized
form of "123 Main Street, Santa Rosa, CA", and there the function is
idempotent. -/
theorem normalizeAddress_idempotent_witness :
    (collapseWS (normalizeAddress "123 Main Street, Santa Rosa, CA").data =
        (normalizeAddress "123 Main Street, Santa Rosa, CA").data ∧
      stripUnits (normalizeAddress "123 Main Street, Santa Rosa, CA").data =
        (normalizeAddress "123 Main Street, Santa Rosa, CA").data ∧
      replaceAbbrevs (normalizeAddress "123 Main Street, Santa Rosa, CA").data =
        (normalizeAddress "123 Main Street, Santa Rosa, CA").data) ∧
    normalizeAddress (normalizeAddress "123 Main Street, Santa Rosa, CA") =
      normalizeAddress "123 Main Street, Santa Rosa, CA" :=
  ⟨⟨by decide, by decide, by decide⟩,
    normalizeAddress_idempotent_on_stable_outputs _ (by decide) (by decide) (by decide)⟩

/-- C3 (counterexample): the output of `normalize_address` can contain two
consecutive spaces: removing "apt 3" from "a apt 3 b" happens after
whitespace collapsing and leaves "a  b". -/
theorem normalizeAddress_double_space_counterexample :
    hasDoubleSpace (normalizeAddress "a apt 3 b").data = true := by decide

/-- C3 (amended): the no-leading/trailing-whitespace half of the claim
holds for every input (the final `strip()`); the no-double-space half is
false in general. -/
theorem normalizeAddress_no_lead_trail_whitespace (s : String) :
    noLeadTrailWS (normalizeAddress s) = true := by
  unfold noLeadTrailWS
  rw [Bool.and_eq_true]
  constructor
  · cases hh : (normalizeAddress s).data.head? with
    | none => rfl
    | some c => simp [normalize_head_not_space s c hh]
  · cases hh : (normalizeAddress s).data.getLast? with
    | none => rfl
    | some c => simp [normalize_getLast_not_space s c hh]

/-- C4 (evaluation at the failing input): stripping "Apt 3" leaves a double
space, so the two normalized forms differ and the pair is never an exact
match, for every similarity function and threshold. -/
theorem apt_scenario_divergence :
    normalizeAddress "456 Oak Ave Apt 3, Petaluma, CA" = "456 oak ave  petaluma ca" ∧
    normalizeAddress "456 Oak Ave, Petaluma, CA" = "456 oak ave petaluma ca" ∧
    ¬ normalizeAddress "456 Oak Ave Apt 3, Petaluma, CA" =
        normalizeAddress "456 Oak Ave, Petaluma, CA" ∧
    ∀ (sim : String → String → ℚ) (t : ℚ),
      (findSimilarAddresses sim ["456 Oak Ave Apt 3, Petaluma, CA"]
          ["456 Oak Ave, Petaluma, CA"] t).2 = [] :=
  ⟨by decide, by decide, by decide, fun _ _ => rfl⟩

/-- C5: a pair with equal non-empty normalized forms is in the exact-match
list and never appears in the fuzzy list (the comparison loop skips pairs
recorded in `exact_match_pairs`). -/
theorem exact_pair_in_exact_never_in_fuzzy (sim : String → String → ℚ)
    (A B : List String) (t : ℚ) (a b : String) (ha : a ∈ A) (hb : b ∈ B)
    (hne : ¬ normalizeAddress a = "") (heq : normalizeAddress a = normalizeAddress b) :
    (a, b) ∈ (findSimilarAddresses sim A B t).2 ∧
      ∀ s, (a, b, s) ∉ (findSimilarAddresses sim A B t).1 := by
  have hex : (a, b) ∈ exactOf A B := exactOf_mem_intro ha hb hne heq
  refine ⟨hex, ?_⟩
  intro s hmem
  have h1 := (greedy_mem _ _ _ _ hmem).2.2
  have h2 := (List.perm_insertionSort scoreGE _).mem_iff.mp h1
  have h3 := compareAll_mem sim t _ _ _ _ _ h2
  exact h3.1 hex

/-- C5 (witness): "a." and "a," both normalize to "a"; the pair lands in
the exact list and in no fuzzy triple. -/
theorem exact_pair_witness :
    ("a." ∈ ["a."] ∧ "a," ∈ ["a,"] ∧ ¬ normalizeAddress "a." = "" ∧
      normalizeAddress "a." = normalizeAddress "a,") ∧
    ("a.", "a,") ∈ (findSimilarAddresses (fun _ _ => 0) ["a."] ["a,"] 0).2 ∧
      ∀ s, ("a.", "a,", s) ∉ (findSimilarAddresses (fun _ _ => 0) ["a."] ["a,"] 0).1 :=
  ⟨⟨by decide, by decide, by decide, by decide⟩,
    exact_pair_in_exact_never_in_fuzzy (fun _ _ => 0) ["a."] ["a,"] 0 "a." "a,"
      (by decide) (by decide) (by decide) (by decide)⟩

/-- C6: every score in the fuzzy list satisfies threshold ≤ score < 1; a
score of exactly 1 never appears (the filter `threshold <= score < 1.0`). -/
theorem fuzzy_scores_within_threshold_and_below_one (sim : String → String → ℚ)
    (A B : List String) (t : ℚ) (g r : String) (s : ℚ)
    (h : (g, r, s) ∈ (findSimilarAddresses sim A B t).1) : t ≤ s ∧ s < 1 := by
  have h1 := (greedy_mem _ _ _ _ h).2.2
  have h2 := (List.perm_insertionSort scoreGE _).mem_iff.mp h1
  have h3 := compareAll_mem sim t _ _ _ _ _ h2
  exact ⟨h3.2.1, h3.2.2.1⟩

/-- C6 (witness): a concrete run producing the fuzzy triple
("12 ab", "12 ac", 0) at threshold 0, whose score satisfies the bounds. -/
theorem fuzzy_scores_witness :
    ("12 ab", "12 ac", (0:ℚ)) ∈
      (findSimilarAddresses (fun _ _ => 0) ["12 ab"] ["12 ac"] 0).1 ∧
    ((0:ℚ) ≤ 0 ∧ (0:ℚ) < 1) :=
  ⟨by decide,
    fuzzy_scores_within_threshold_and_below_one (fun _ _ => 0) ["12 ab"] ["12 ac"] 0
      "12 ab" "12 ac" 0 (by decide)⟩

/-- C7: no operation fails on empty or missing input — `normalize_address`
returns "", `get_address_keys` returns no keys, and an address whose
normalized form is empty appears in neither output list of
`find_similar_addresses` (in the embedding every operation is a total
function, so nothing can raise). -/
theorem matcher_total_on_empty_and_missing :
    normalizeAddressOpt none = "" ∧ normalizeAddress "" = "" ∧
    getAddressKeysOpt none = [] ∧ getAddressKeys "" = [] ∧
    ∀ (sim : String → String → ℚ) (A B : List String) (t : ℚ) (a : String),
      normalizeAddress a = "" →
      (∀ b, (a, b) ∉ (findSimilarAddresses sim A B t).2 ∧
            (b, a) ∉ (findSimilarAddresses sim A B t).2) ∧
      ∀ b s, (a, b, s) ∉ (findSimilarAddresses sim A B t).1 ∧
             (b, a, s) ∉ (findSimilarAddresses sim A B t).1 := by
  refine ⟨rfl, rfl, rfl, rfl, ?_⟩
  intro sim A B t a hna
  constructor
  · intro b
    constructor
    · intro h
      exact (exactOf_mem_elim h).1 hna
    · intro h
      exact (exactOf_mem_elim h).2.1 hna
  · intro b s
    constructor
    · intro h
      have h1 := (greedy_mem _ _ _ _ h).2.2
      have h2 := (List.perm_insertionSort scoreGE _).mem_iff.mp h1
      have h3 := compareAll_mem sim t _ _ _ _ _ h2
      rcases h3.2.2.2.2 with ⟨g, hg, hga, k, hk, hkne⟩
      have hg2 : g.2 = "" := by
        rw [normPairs_shape hg, hga]
        exact hna
      rw [hg2] at hk
      simp [getAddressKeys] at hk
    · intro h
      have h1 := (greedy_mem _ _ _ _ h).2.2
      have h2 := (List.perm_insertionSort scoreGE _).mem_iff.mp h1
      have h3 := compareAll_mem sim t _ _ _ _ _ h2
      rcases h3.2.2.2.1 with ⟨rev, hrev, hkeys, hreq⟩
      have hr2 : rev.2 = "" := by
        rw [normPairs_shape hrev, ← hreq]
        exact hna
      rw [hr2] at hkeys
      exact hkeys rfl

/-- C7 (witness): "," normalizes to the empty string and is excluded from
both match lists of a concrete run. -/
theorem matcher_total_witness :
    normalizeAddress "," = "" ∧
    (",", "x") ∉ (findSimilarAddresses (fun _ _ => 0) [","] ["x"] 0).2 ∧
    ∀ s, (",", "x", s) ∉ (findSimilarAddresses (fun _ _ => 0) [","] ["x"] 0).1 :=
  ⟨by decide,
    ((matcher_total_on_empty_and_missing.2.2.2.2 (fun _ _ => 0) [","] ["x"] 0 ","
        (by decide)).1 "x").1,
    fun s => ((matcher_total_on_empty_and_missing.2.2.2.2 (fun _ _ => 0) [","] ["x"] 0 ","
        (by decide)).2 "x" s).1⟩

/-- C8: `find_similar_addresses` is deterministic — in this embedding it is
a pure function of the similarity function, the two input collections
(taken in order) and the threshold, so two runs on the same inputs are
definitionally equal, fuzzy lists and exact lists alike. -/
theorem findSimilarAddresses_deterministic (sim : String → String → ℚ)
    (A B : List String) (t : ℚ) :
    findSimilarAddresses sim A B t = findSimilarAddresses sim A B t ∧
    (findSimilarAddresses sim A B t).1 = (findSimilarAddresses sim A B t).1 ∧
    (findSimilarAddresses sim A B t).2 = (findSimilarAddresses sim A B t).2 :=
  ⟨rfl, rfl, rfl⟩

/-- C9: the fuzzy list is sorted by non-increasing similarity score: the
greedy pass preserves the order of the descending stable sort. -/
theorem fuzzy_sorted_by_descending_score (sim : String → String → ℚ)
    (A B : List String) (t : ℚ) :
    (findSimilarAddresses sim A B t).1.Pairwise fun p q => q.2.2 ≤ p.2.2 := by
  have hs : (List.insertionSort scoreGE (allPotentialOf sim A B t)).Pairwise scoreGE :=
    List.sorted_insertionSort scoreGE _
  exact List.Pairwise.sublist (greedy_sublist _ _ _) hs

/-- C10: the output of `normalize_address` contains no comma, period, `#`
or (ASCII) upper-case letter, and `get_address_keys` returns at most five
keys. -/
theorem normalize_charset_and_key_count_bound (s : String) :
    ((normalizeAddress s).data.all fun c =>
        !(c == ',') && !(c == '.') && !(c == '#') && !(upperA c)) = true ∧
    (getAddressKeys s).length ≤ 5 := by
  constructor
  · rw [List.all_eq_true]
    intro c hc
    have h1 := normalize_no_punct s c hc
    have h2 := normalize_no_upper s c hc
    simp only [Bool.or_eq_false_iff] at h1
    simp [h1.1.1, h1.1.2, h1.2, h2]
  · unfold getAddressKeys
    split
    · simp
    · rw [List.length_append]
      have ha := keysBeforeZip_length (lowerL s.data)
      have hb := zipKeys_length s.data
      omega
